import Mathlib

/-!
Shallow embedding of `src/splitmix64.rs` (the SplitMix64 splittable PRNG).

64-bit machine words are modelled as `Nat` with explicit `% 2 ^ 64` at every
wrapping multiplication/addition; `^^^`, `>>>`, `|||` model the Rust bitwise
operators (Rust `wrapping_shr` masks the shift amount by 64, hence `n % 64`).
Mutation of `&mut self` is modelled by explicit state passing: an operation
that in Rust mutates the generator and returns a value becomes a Lean
function returning the updated state paired with the value.
-/

/-- Constant `GOLDEN_GAMMA` from the source. -/
def GOLDEN_GAMMA : Nat := 0x9e3779b97f4a7c15

/-- Embedding of `shift_xor(n, w) = w ^ w.wrapping_shr(n)`. -/
def shift_xor (n w : Nat) : Nat := w ^^^ (w >>> (n % 64))

/-- Embedding of `shift_xor_mult(n, k, w) = shift_xor(n, w).wrapping_mul(k)`. -/
def shift_xor_mult (n k w : Nat) : Nat := shift_xor n w * k % 2 ^ 64

/-- Embedding of `mix64`. -/
def mix64 (z : Nat) : Nat :=
  shift_xor 31 (shift_xor_mult 33 0xc4ceb9fe1a85ec53 (shift_xor_mult 33 0xff51afd7ed558ccd z))

/-- Embedding of `mix64_variant_13`. -/
def mix64_variant_13 (z : Nat) : Nat :=
  shift_xor 31 (shift_xor_mult 27 0x94d049bb133111eb (shift_xor_mult 30 0xbf58476d1ce4e5b9 z))

/-- Population count (Rust `u64::count_ones`), by binary recursion. -/
def count_ones : Nat → Nat
  | 0 => 0
  | n + 1 => (n + 1) % 2 + count_ones ((n + 1) / 2)
termination_by n => n
decreasing_by omega

/-- Embedding of `mix_gamma`. -/
def mix_gamma (z : Nat) : Nat :=
  let z1 := mix64_variant_13 z ||| 1
  let n := count_ones (shift_xor 1 z1)
  if 24 ≤ n then z1 else z1 ^^^ 0xaaaaaaaaaaaaaaaa

/-- Embedding of `struct SMGen { seed: u64, gamma: u64 }`. -/
structure SMGen where
  seed : Nat
  gamma : Nat
deriving DecidableEq

/-- Embedding of `SMGen::next_u64`: advance the seed by gamma (wrapping) and
return the new state together with the new seed. -/
def SMGen.next_u64 (g : SMGen) : SMGen × Nat :=
  let s := (g.seed + g.gamma) % 2 ^ 64
  ({ seed := s, gamma := g.gamma }, s)

/-- Embedding of `SMGen::next_u32`: high 32 bits of `next_u64`. -/
def SMGen.next_u32 (g : SMGen) : SMGen × Nat :=
  let p := g.next_u64
  (p.1, p.2 >>> 32)

/-- Embedding of `SMGen::split`: the updated parent is the first component,
the freshly minted child the second. -/
def SMGen.split (g : SMGen) : SMGen × SMGen :=
  let s1 := (g.seed + g.gamma) % 2 ^ 64
  let s2 := (s1 + g.gamma) % 2 ^ 64
  ({ seed := s2, gamma := g.gamma }, { seed := mix64 s1, gamma := mix_gamma s2 })

/-- Embedding of `SMGen::seed_from_u64`. -/
def SMGen.seed_from_u64 (s : Nat) : SMGen :=
  { seed := mix64 s, gamma := mix_gamma ((s + GOLDEN_GAMMA) % 2 ^ 64) }

/-- Little-endian word read performed by `rand_core::le::read_u64_into` on the
8-byte seed buffer in `SMGen::from_seed` (byte 0 is least significant). -/
def read_u64_le (b : Fin 8 → Nat) : Nat :=
  b 0 + 2 ^ 8 * b 1 + 2 ^ 16 * b 2 + 2 ^ 24 * b 3 + 2 ^ 32 * b 4 +
    2 ^ 40 * b 5 + 2 ^ 48 * b 6 + 2 ^ 56 * b 7

/-- Embedding of `SMGen::from_seed`: read the buffer little-endian and
delegate to `seed_from_u64`. -/
def SMGen.from_seed (b : Fin 8 → Nat) : SMGen :=
  SMGen.seed_from_u64 (read_u64_le b)

/-- Specification-side little-endian interpretation `u64::from_le_bytes`,
written as the positional sum of the spec. -/
def u64_from_le_bytes (b : Fin 8 → Nat) : Nat :=
  ∑ i : Fin 8, b i * 2 ^ (8 * (i : Nat))

/-- Little-endian byte list of a 64-bit word (`u64::to_le_bytes`). -/
def le_bytes64 (v : Nat) : List Nat :=
  [v % 2 ^ 8, v / 2 ^ 8 % 2 ^ 8, v / 2 ^ 16 % 2 ^ 8, v / 2 ^ 24 % 2 ^ 8,
   v / 2 ^ 32 % 2 ^ 8, v / 2 ^ 40 % 2 ^ 8, v / 2 ^ 48 % 2 ^ 8, v / 2 ^ 56 % 2 ^ 8]

/-- Little-endian byte list of a 32-bit word (`u32::to_le_bytes`). -/
def le_bytes32 (v : Nat) : List Nat :=
  [v % 2 ^ 8, v / 2 ^ 8 % 2 ^ 8, v / 2 ^ 16 % 2 ^ 8, v / 2 ^ 24 % 2 ^ 8]

/-- Embedding of `SMGen::fill_bytes`, which is `rand_core`'s
`fill_bytes_via_next`: whole 8-byte chunks from `next_u64`, a 5..7-byte tail
from `next_u64`, a 1..4-byte tail from `next_u32`. The buffer is modelled by
its length; the produced bytes are returned as a list. -/
def SMGen.fill_bytes (g : SMGen) (n : Nat) : SMGen × List Nat :=
  if _h8 : 8 ≤ n then
    let p := SMGen.next_u64 g
    let rest := SMGen.fill_bytes p.1 (n - 8)
    (rest.1, le_bytes64 p.2 ++ rest.2)
  else if 4 < n then
    let p := SMGen.next_u64 g
    (p.1, (le_bytes64 p.2).take n)
  else if 0 < n then
    let p := SMGen.next_u32 g
    (p.1, (le_bytes32 p.2).take n)
  else (g, [])
termination_by n
decreasing_by omega

/-- Embedding of `SMGen::try_fill_bytes`: run `fill_bytes`, return `Ok(())`.
The `rand_core::Error` payload is modelled as `Unit` since no error value is
ever constructed. -/
def SMGen.try_fill_bytes (g : SMGen) (n : Nat) : Except Unit (SMGen × List Nat) :=
  Except.ok (SMGen.fill_bytes g n)

/-- Embedding of `struct SMGenClone { inner: UnsafeCell<SMGen> }`. -/
structure SMGenClone where
  inner : SMGen
deriving DecidableEq

/-- Embedding of `impl Clone for SMGenClone`: interior mutability is modelled
by returning the mutated original alongside the produced clone — the first
component is the original wrapper after `clone`, the second the new wrapper. -/
def SMGenClone.clone (w : SMGenClone) : SMGenClone × SMGenClone :=
  let p := w.inner.split
  ({ inner := p.1 }, { inner := p.2 })

/-- State after `k` successive `next_u64` calls. -/
def SMGen.steps (g : SMGen) : Nat → SMGen
  | 0 => g
  | k + 1 => (SMGen.steps g k).next_u64.1

/-- Value returned by the `k`-th of `k` consecutive `next_u64` calls (`k ≥ 1`). -/
def SMGen.draw (g : SMGen) (k : Nat) : Nat :=
  (SMGen.steps g (k - 1)).next_u64.2

/-- Explicit inverse of `mix64` (odd-constant inverses and xor-shift
unwinding), used to witness bijectivity. -/
def unmix64 (y : Nat) : Nat :=
  shift_xor 33
    (shift_xor 33 ((y ^^^ (y >>> 31) ^^^ (y >>> 62)) * 0x9cb4b2f8129337db % 2 ^ 64)
      * 0x4f74430c22a54005 % 2 ^ 64)

/-! ### Generic word-level lemmas -/

lemma two_pow_64_pos : 0 < 2 ^ 64 := by norm_num

lemma mod_two_pow_64_lt (a : Nat) : a % 2 ^ 64 < 2 ^ 64 :=
  Nat.mod_lt _ two_pow_64_pos

lemma shiftRight_lt_two_pow {w : Nat} (hw : w < 2 ^ 64) (n : Nat) : w >>> n < 2 ^ 64 := by
  rw [Nat.shiftRight_eq_div_pow]
  exact lt_of_le_of_lt (Nat.div_le_self _ _) hw

lemma shift_xor_lt {w : Nat} (hw : w < 2 ^ 64) (n : Nat) : shift_xor n w < 2 ^ 64 :=
  Nat.xor_lt_two_pow hw (shiftRight_lt_two_pow hw _)

lemma shiftRight_eq_zero_of_le {w : Nat} (hw : w < 2 ^ 64) {n : Nat} (hn : 64 ≤ n) :
    w >>> n = 0 := by
  rw [Nat.shiftRight_eq_div_pow]
  exact Nat.div_eq_of_lt (lt_of_lt_of_le hw (Nat.pow_le_pow_right (by norm_num) hn))

lemma xor_shiftRight_distrib (x y n : Nat) : (x ^^^ y) >>> n = x >>> n ^^^ y >>> n := by
  apply Nat.eq_of_testBit_eq
  intro i
  simp [Nat.testBit_shiftRight, Nat.testBit_xor]

lemma nat_xor_left_comm (a b c : Nat) : a ^^^ (b ^^^ c) = b ^^^ (a ^^^ c) := by
  rw [← Nat.xor_assoc, Nat.xor_comm a b, Nat.xor_assoc]

lemma nat_xor_cancel_left (a b : Nat) : a ^^^ (a ^^^ b) = b := by
  rw [← Nat.xor_assoc, Nat.xor_self, Nat.zero_xor]

lemma shift_xor_33_invol {w : Nat} (hw : w < 2 ^ 64) : shift_xor 33 (shift_xor 33 w) = w := by
  have h66 : w >>> 33 >>> 33 = 0 := by
    rw [← Nat.shiftRight_add]
    exact shiftRight_eq_zero_of_le hw (by norm_num)
  simp only [shift_xor, Nat.reduceMod, xor_shiftRight_distrib, h66]
  simp [Nat.xor_assoc, Nat.xor_comm, nat_xor_left_comm, nat_xor_cancel_left]

lemma shift_xor_31_linv {w : Nat} (hw : w < 2 ^ 64) :
    shift_xor 31 w ^^^ (shift_xor 31 w) >>> 31 ^^^ (shift_xor 31 w) >>> 62 = w := by
  have h62 : w >>> 31 >>> 31 = w >>> 62 := by rw [← Nat.shiftRight_add]
  have h93 : w >>> 31 >>> 62 = 0 := by
    rw [← Nat.shiftRight_add]
    exact shiftRight_eq_zero_of_le hw (by norm_num)
  have h93' : w >>> 62 >>> 31 = 0 := by
    rw [← Nat.shiftRight_add]
    exact shiftRight_eq_zero_of_le hw (by norm_num)
  simp only [shift_xor, Nat.reduceMod, xor_shiftRight_distrib, h62, h93, h93']
  simp [Nat.xor_assoc, Nat.xor_comm, nat_xor_left_comm, nat_xor_cancel_left]

lemma mul_mod_inv_cancel {w c cinv : Nat} (hw : w < 2 ^ 64) (h : c * cinv % 2 ^ 64 = 1) :
    w * c % 2 ^ 64 * cinv % 2 ^ 64 = w := by
  rw [Nat.mod_mul_mod, Nat.mul_assoc, Nat.mul_mod, h, Nat.mul_one]
  simp only [Nat.mod_eq_of_lt hw]

/-! ### Bounds on the mixing functions -/

lemma mix64_lt (z : Nat) : mix64 z < 2 ^ 64 :=
  shift_xor_lt (mod_two_pow_64_lt _) 31

lemma mix64_variant_13_lt (z : Nat) : mix64_variant_13 z < 2 ^ 64 :=
  shift_xor_lt (mod_two_pow_64_lt _) 31

lemma mix_gamma_candidate_lt (z : Nat) : mix64_variant_13 z ||| 1 < 2 ^ 64 :=
  Nat.or_lt_two_pow (mix64_variant_13_lt z) (by norm_num)

/-- Unfolding of `mix_gamma` with its let-bindings zeta-reduced. -/
lemma mix_gamma_def (z : Nat) :
    mix_gamma z =
      if 24 ≤ count_ones (shift_xor 1 (mix64_variant_13 z ||| 1)) then mix64_variant_13 z ||| 1
      else (mix64_variant_13 z ||| 1) ^^^ 0xaaaaaaaaaaaaaaaa := rfl

lemma mix_gamma_lt (z : Nat) : mix_gamma z < 2 ^ 64 := by
  rw [mix_gamma_def]
  split
  · exact mix_gamma_candidate_lt z
  · exact Nat.xor_lt_two_pow (mix_gamma_candidate_lt z) (by norm_num)

/-! ### Splitting: shared facts -/

lemma split_parent_eq (g : SMGen) :
    (SMGen.split g).1 = { seed := (g.seed + 2 * g.gamma) % 2 ^ 64, gamma := g.gamma } := by
  simp only [SMGen.split]
  congr 1
  rw [Nat.mod_add_mod]
  congr 1
  omega

lemma split_second_advance (g : SMGen) :
    ((g.seed + g.gamma) % 2 ^ 64 + g.gamma) % 2 ^ 64 = (g.seed + 2 * g.gamma) % 2 ^ 64 := by
  rw [Nat.mod_add_mod]
  congr 1
  omega

/-- C2: `seed_from_u64(s)` has seed `mix64(s)` — with the exact §4.1 shift
amounts and constants — and gamma `mix_gamma(s + GOLDEN_GAMMA mod 2^64)` with
`GOLDEN_GAMMA = 0x9e3779b97f4a7c15`. -/
theorem seed_from_u64_fields (s : Nat) :
    (SMGen.seed_from_u64 s).seed =
      shift_xor 31 (shift_xor_mult 33 0xc4ceb9fe1a85ec53 (shift_xor_mult 33 0xff51afd7ed558ccd s)) ∧
    (SMGen.seed_from_u64 s).gamma = mix_gamma ((s + 0x9e3779b97f4a7c15) % 2 ^ 64) :=
  ⟨rfl, rfl⟩

/-- C3: the child minted by `split` has seed `mix64` of the parent seed after
the first advance and gamma `mix_gamma` of the parent seed after the second
advance. -/
theorem split_child_fields (g : SMGen) :
    (SMGen.split g).2.seed = mix64 ((g.seed + g.gamma) % 2 ^ 64) ∧
    (SMGen.split g).2.gamma = mix_gamma ((g.seed + 2 * g.gamma) % 2 ^ 64) := by
  refine ⟨rfl, ?_⟩
  show mix_gamma (((g.seed + g.gamma) % 2 ^ 64 + g.gamma) % 2 ^ 64) =
    mix_gamma ((g.seed + 2 * g.gamma) % 2 ^ 64)
  exact congrArg mix_gamma (split_second_advance g)

/-- C4: after `split`, the parent state is exactly its pre-split seed advanced
by `2 * gamma` (mod 2^64) with the gamma field unchanged; nothing else of the
two-field state is modified. -/
theorem split_parent_frame (g : SMGen) :
    (SMGen.split g).1 = { seed := (g.seed + 2 * g.gamma) % 2 ^ 64, gamma := g.gamma } :=
  split_parent_eq g

/-! ### Iterated draws -/

lemma steps_gamma (g : SMGen) : ∀ k, (SMGen.steps g k).gamma = g.gamma := by
  intro k
  induction k with
  | zero => rfl
  | succ k ih => simp [SMGen.steps, SMGen.next_u64, ih]

lemma steps_seed (g : SMGen) : ∀ k, (SMGen.steps g (k + 1)).seed = (g.seed + (k + 1) * g.gamma) % 2 ^ 64 := by
  intro k
  induction k with
  | zero =>
    show (g.seed + g.gamma) % 2 ^ 64 = (g.seed + 1 * g.gamma) % 2 ^ 64
    rw [Nat.one_mul]
  | succ k ih =>
    show ((SMGen.steps g (k + 1)).seed + (SMGen.steps g (k + 1)).gamma) % 2 ^ 64 = _
    rw [ih, steps_gamma, Nat.mod_add_mod]
    congr 1
    ring

/-- C1: one `next_u64` call updates `(seed, gamma)` to
`(seed + gamma mod 2^64, gamma)` and returns the new seed directly, and the
`k`-th of `k` consecutive draws (`k ≥ 1`) equals `seed + k * gamma (mod 2^64)`. -/
theorem next_u64_advance_and_kth_draw (g : SMGen) (k : Nat) (hk : 1 ≤ k) :
    g.next_u64 = ({ seed := (g.seed + g.gamma) % 2 ^ 64, gamma := g.gamma },
      (g.seed + g.gamma) % 2 ^ 64) ∧
    g.draw k = (g.seed + k * g.gamma) % 2 ^ 64 := by
  refine ⟨rfl, ?_⟩
  obtain ⟨j, rfl⟩ : ∃ j, k = j + 1 := ⟨k - 1, by omega⟩
  have h : SMGen.draw g (j + 1) = (SMGen.steps g (j + 1)).seed := by
    simp [SMGen.draw, SMGen.steps, SMGen.next_u64]
  rw [h, steps_seed]

/-- Witness for C1 at the concrete state `(seed, gamma) = (1, 3)` and `k = 5`. -/
theorem next_u64_advance_and_kth_draw_witness :
    (SMGen.mk 1 3).next_u64 = ({ seed := (1 + 3) % 2 ^ 64, gamma := 3 }, (1 + 3) % 2 ^ 64) ∧
    (SMGen.mk 1 3).draw 5 = (1 + 5 * 3) % 2 ^ 64 :=
  next_u64_advance_and_kth_draw (SMGen.mk 1 3) 5 (by decide)

/-- C8: `from_seed` on an 8-byte buffer is `seed_from_u64` of the
little-endian value of the buffer. -/
theorem from_seed_le_equiv (b : Fin 8 → Nat) :
    SMGen.from_seed b = SMGen.seed_from_u64 (u64_from_le_bytes b) := by
  unfold SMGen.from_seed
  congr 1
  unfold read_u64_le u64_from_le_bytes
  rw [Fin.sum_univ_eight]
  have h3 : ((3 : Fin 8) : Nat) = 3 := rfl
  have h4 : ((4 : Fin 8) : Nat) = 4 := rfl
  have h5 : ((5 : Fin 8) : Nat) = 5 := rfl
  have h6 : ((6 : Fin 8) : Nat) = 6 := rfl
  have h7 : ((7 : Fin 8) : Nat) = 7 := rfl
  norm_num [h3, h4, h5, h6, h7]
  ring

/-- C10: `try_fill_bytes` always succeeds, returning `Ok` of exactly what the
infallible `fill_bytes` produces (same final state, same bytes). -/
theorem try_fill_bytes_always_ok (g : SMGen) (n : Nat) :
    SMGen.try_fill_bytes g n = Except.ok (SMGen.fill_bytes g n) ∧
    (SMGen.try_fill_bytes g n).isOk = true :=
  ⟨rfl, rfl⟩

/-! ### Population-count machinery for the gamma invariants -/

lemma count_ones_eq (n : Nat) : count_ones n = n % 2 + count_ones (n / 2) := by
  cases n with
  | zero => simp [count_ones]
  | succ m => rw [count_ones]

lemma xor_mod_two (x y : Nat) : (x ^^^ y) % 2 = (x % 2 + y % 2) % 2 := by
  have h := Nat.testBit_xor x y 0
  rw [Nat.testBit_zero, Nat.testBit_zero, Nat.testBit_zero] at h
  have hx := Nat.mod_two_eq_zero_or_one x
  have hy := Nat.mod_two_eq_zero_or_one y
  have hxy := Nat.mod_two_eq_zero_or_one (x ^^^ y)
  rcases hx with hx | hx <;> rcases hy with hy | hy <;>
    simp [hx, hy] at h ⊢ <;> omega

lemma xor_div_two (x y : Nat) : (x ^^^ y) / 2 = x / 2 ^^^ y / 2 := by
  apply Nat.eq_of_testBit_eq
  intro i
  simp [Nat.testBit_div_two, Nat.testBit_xor]

lemma count_ones_xor_compl : ∀ k x, x < 2 ^ k → count_ones (x ^^^ (2 ^ k - 1)) + count_ones x = k := by
  intro k
  induction k with
  | zero =>
    intro x hx
    have hx0 : x = 0 := by omega
    subst hx0
    simp [count_ones]
  | succ k ih =>
    intro x hx
    have hpow : (2 : Nat) ^ (k + 1) = 2 * 2 ^ k := by ring
    have hk1 : 1 ≤ (2 : Nat) ^ k := Nat.one_le_two_pow
    have hx2 : x / 2 < 2 ^ k := by omega
    have hm2 : (2 ^ (k + 1) - 1) % 2 = 1 := by omega
    have hmd : (2 ^ (k + 1) - 1) / 2 = 2 ^ k - 1 := by omega
    rw [count_ones_eq (x ^^^ (2 ^ (k + 1) - 1)), count_ones_eq x, xor_mod_two, xor_div_two,
      hm2, hmd]
    have hIH := ih (x / 2) hx2
    omega

/-- Oddness of `z ||| 1`. -/
lemma or_one_mod_two (v : Nat) : (v ||| 1) % 2 = 1 := by
  have h1 : (1 : Nat).testBit 0 = true := by decide
  have h : (v ||| 1).testBit 0 = true := by simp [Nat.testBit_or, h1]
  rw [Nat.testBit_zero] at h
  exact of_decide_eq_true h

lemma mix_gamma_mod_two (z : Nat) : mix_gamma z % 2 = 1 := by
  rw [mix_gamma_def]
  split
  · exact or_one_mod_two _
  · rw [xor_mod_two, or_one_mod_two]

/-- C5: `mix_gamma` always returns an odd word (in both branches), so the
gamma of every generator built by `seed_from_u64`, `from_seed`, or `split`
has least-significant bit 1. -/
theorem gamma_always_odd (z s : Nat) (b : Fin 8 → Nat) (g : SMGen) :
    mix_gamma z % 2 = 1 ∧
    (SMGen.seed_from_u64 s).gamma % 2 = 1 ∧
    (SMGen.from_seed b).gamma % 2 = 1 ∧
    (SMGen.split g).2.gamma % 2 = 1 :=
  ⟨mix_gamma_mod_two z, mix_gamma_mod_two _, mix_gamma_mod_two _, mix_gamma_mod_two _⟩

/-- Xor-shift by one distributes over xor. -/
lemma shift_xor_one_xor (a b : Nat) : shift_xor 1 (a ^^^ b) = shift_xor 1 a ^^^ shift_xor 1 b := by
  apply Nat.eq_of_testBit_eq
  intro i
  simp only [shift_xor, Nat.reduceMod, Nat.testBit_xor, xor_shiftRight_distrib]
  cases a.testBit i <;> cases b.testBit i <;>
    cases (a >>> 1).testBit i <;> cases (b >>> 1).testBit i <;> rfl

lemma shift_xor_one_mask : shift_xor 1 0xaaaaaaaaaaaaaaaa = 2 ^ 64 - 1 := by decide

/-- C6: the dispersion count of `mix_gamma z`, the population count of
`mix_gamma z XOR (mix_gamma z >> 1)`, is at least 24 in both branches; the
xor-correction branch works because the dispersion counts of the candidate
and of the corrected candidate always sum to 64. -/
theorem gamma_dispersion (z : Nat) :
    24 ≤ count_ones (mix_gamma z ^^^ (mix_gamma z >>> 1)) ∧
    count_ones (shift_xor 1 (mix64_variant_13 z ||| 1)) +
      count_ones (shift_xor 1 ((mix64_variant_13 z ||| 1) ^^^ 0xaaaaaaaaaaaaaaaa)) = 64 := by
  have hglt : mix64_variant_13 z ||| 1 < 2 ^ 64 := mix_gamma_candidate_lt z
  have hsxlt : shift_xor 1 (mix64_variant_13 z ||| 1) < 2 ^ 64 := shift_xor_lt hglt 1
  have hcompl : shift_xor 1 ((mix64_variant_13 z ||| 1) ^^^ 0xaaaaaaaaaaaaaaaa) =
      shift_xor 1 (mix64_variant_13 z ||| 1) ^^^ (2 ^ 64 - 1) := by
    rw [shift_xor_one_xor, shift_xor_one_mask]
  have hsum := count_ones_xor_compl 64 _ hsxlt
  constructor
  · have hrw : ∀ v : Nat, v ^^^ (v >>> 1) = shift_xor 1 v := by
      intro v
      rfl
    rw [hrw, mix_gamma_def]
    split
    · assumption
    · rw [hcompl]
      omega
  · rw [hcompl]
    omega

/-! ### Bijectivity of `mix64` -/

lemma unmix64_mix64 {z : Nat} (hz : z < 2 ^ 64) : unmix64 (mix64 z) = z := by
  unfold mix64 shift_xor_mult
  set a := shift_xor 33 z with ha
  set b := a * 0xff51afd7ed558ccd % 2 ^ 64 with hb
  set c := shift_xor 33 b with hc
  set d := c * 0xc4ceb9fe1a85ec53 % 2 ^ 64 with hd
  have halt : a < 2 ^ 64 := shift_xor_lt hz 33
  have hblt : b < 2 ^ 64 := mod_two_pow_64_lt _
  have hclt : c < 2 ^ 64 := shift_xor_lt hblt 33
  have hdlt : d < 2 ^ 64 := mod_two_pow_64_lt _
  unfold unmix64
  rw [shift_xor_31_linv hdlt, hd, mul_mod_inv_cancel hclt (by decide), hc,
    shift_xor_33_invol hblt, hb, mul_mod_inv_cancel halt (by decide), ha,
    shift_xor_33_invol hz]

/-- C7: `mix64` is a bijection on 64-bit words — the explicit `unmix64`
inverts it, hence it is injective on inputs below `2^64`. -/
theorem mix64_bijective (x y : Nat) (hx : x < 2 ^ 64) (hy : y < 2 ^ 64) :
    unmix64 (mix64 x) = x ∧ (mix64 x = mix64 y → x = y) := by
  refine ⟨unmix64_mix64 hx, fun h => ?_⟩
  rw [← unmix64_mix64 hx, h, unmix64_mix64 hy]

/-- Witness for C7 at the concrete input `x = y = 42`. -/
theorem mix64_bijective_witness :
    unmix64 (mix64 42) = 42 ∧ (mix64 42 = mix64 42 → 42 = 42) :=
  mix64_bijective 42 42 (by decide) (by decide)

/-! ### Clone-as-split -/

/-- C9: cloning an `SMGenClone` performs a split — the original wrapper's
state is mutated to the post-split parent (seed advanced by `2 * gamma`,
gamma unchanged) and the returned wrapper holds exactly the split child; for
any well-formed state (odd gamma, in-range seed) the mutated original differs
from the pre-clone state, so the clone is never a side-effect-free copy. -/
theorem clone_is_split (w : SMGenClone) :
    (SMGenClone.clone w).1.inner =
      { seed := (w.inner.seed + 2 * w.inner.gamma) % 2 ^ 64, gamma := w.inner.gamma } ∧
    (SMGenClone.clone w).2.inner = (SMGen.split w.inner).2 ∧
    (w.inner.gamma % 2 = 1 → w.inner.seed < 2 ^ 64 →
      (SMGenClone.clone w).1.inner ≠ w.inner) := by
  have hpar : (SMGenClone.clone w).1.inner = { seed := (w.inner.seed + 2 * w.inner.gamma) % 2 ^ 64, gamma := w.inner.gamma } := by
    show (SMGen.split w.inner).1 = _
    exact split_parent_eq w.inner
  refine ⟨hpar, rfl, fun hodd hs hEq => ?_⟩
  rw [hpar] at hEq
  have hseed : (w.inner.seed + 2 * w.inner.gamma) % 2 ^ 64 = w.inner.seed :=
    congrArg SMGen.seed hEq
  have hmod : (w.inner.seed + 2 * w.inner.gamma) % 2 ^ 64 = w.inner.seed % 2 ^ 64 := by
    rw [hseed, Nat.mod_eq_of_lt hs]
  have hdvd : 2 ^ 64 ∣ w.inner.seed + 2 * w.inner.gamma - w.inner.seed :=
    (Nat.modEq_iff_dvd' (Nat.le_add_right _ _)).mp hmod.symm
  rw [Nat.add_sub_cancel_left] at hdvd
  obtain ⟨c, hc⟩ := hdvd
  have hlit : (2 : Nat) ^ 64 = 18446744073709551616 := by norm_num
  rw [hlit] at hc
  omega

/-- Witness for C9 at the concrete wrapped state `(seed, gamma) = (0, 1)`. -/
theorem clone_is_split_witness :
    (SMGenClone.clone ⟨⟨0, 1⟩⟩).1.inner = { seed := (0 + 2 * 1) % 2 ^ 64, gamma := 1 } ∧
    (SMGenClone.clone ⟨⟨0, 1⟩⟩).2.inner = (SMGen.split ⟨0, 1⟩).2 ∧
    (SMGenClone.clone ⟨⟨0, 1⟩⟩).1.inner ≠ ⟨0, 1⟩ := by
  obtain ⟨h1, h2, h3⟩ := clone_is_split ⟨⟨0, 1⟩⟩
  exact ⟨h1, h2, h3 (by decide) (by decide)⟩
